/-
Verification of crdt-kit against its specification.

Shallow embedding conventions:
  * Rust `u64`/`u32`/`u8` values are modelled as `Nat`; arithmetic that can
    wrap in release builds is written with an explicit `% 2^w` at the spots
    where the claims depend on it (the HLC logical counter).  Fields that are
    only compared, never added to, are plain `Nat`.
  * `BTreeMap<K,V>` is modelled as an association list `List (K × V)`;
    well-formedness (no duplicate keys) is carried as a hypothesis where a
    proof needs it, since the Rust type maintains it by construction.
  * `BTreeSet<T>` is modelled as `Finset T`.
  * Rust `Result<T, E>` is `Except E T`; panics are modelled by `Option`.
  * Receiver-mutating methods (`fn f(&mut self, ...)`) become pure functions
    returning the updated value (and the Rust return value, when there is one).
-/
import Mathlib

namespace CrdtKit

/-! ## LWW-Register (src/src/lww_register.rs) -/

structure LWWRegister (α : Type) where
  actor : String
  value : α
  timestamp : Nat
deriving Repr, DecidableEq

/-- `impl<T: Clone> Crdt for LWWRegister<T>`: replace value and timestamp when
the other register wins under `(timestamp, actor)`; the receiver's `actor`
field is never written. -/
def LWWRegister.merge {α : Type} (self other : LWWRegister α) : LWWRegister α :=
  if other.timestamp > self.timestamp
      ∨ (other.timestamp = self.timestamp ∧ self.actor < other.actor) then
    { self with value := other.value, timestamp := other.timestamp }
  else
    self

/-! ## 2P-Set (src/src/twop_set.rs) -/

structure TwoPSet (α : Type) where
  added : Finset α
  removed : Finset α

/-- `TwoPSet::contains`: added and not removed. -/
def TwoPSet.contains {α : Type} (s : TwoPSet α) (x : α) : Prop :=
  x ∈ s.added ∧ x ∉ s.removed

/-- `impl<T: Ord + Clone> Crdt for TwoPSet<T>`: union both component sets. -/
def TwoPSet.merge {α : Type} [DecidableEq α] (self other : TwoPSet α) : TwoPSet α :=
  { added := self.added ∪ other.added, removed := self.removed ∪ other.removed }

/-! ## Versioned envelope (src/crates/crdt-migrate/src/envelope.rs)

Bytes are modelled as `Nat` values (`u8` holds 0..255; `from_bytes` only ever
compares bytes, so the range plays no role in the claims). -/

/-- `MAGIC_BYTE`: 0xCF. -/
def MAGIC_BYTE : Nat := 0xCF

/-- `ENVELOPE_HEADER_SIZE`. -/
def ENVELOPE_HEADER_SIZE : Nat := 3

inductive CrdtType where
  | GCounterTy | PNCounterTy | GSetTy | TwoPSetTy | LWWRegisterTy
  | MVRegisterTy | ORSetTy | RgaTy | TextCrdtTy | Custom
deriving Repr, DecidableEq

/-- `CrdtType::from_byte`. -/
def CrdtType.from_byte (b : Nat) : Option CrdtType :=
  match b with
  | 1 => some .GCounterTy
  | 2 => some .PNCounterTy
  | 3 => some .GSetTy
  | 4 => some .TwoPSetTy
  | 5 => some .LWWRegisterTy
  | 6 => some .MVRegisterTy
  | 7 => some .ORSetTy
  | 8 => some .RgaTy
  | 9 => some .TextCrdtTy
  | 255 => some .Custom
  | _ => none

structure VersionedEnvelope where
  version : Nat
  crdt_type : CrdtType
  payload : List Nat
deriving Repr, DecidableEq

inductive EnvelopeError where
  | TooShort
  | InvalidMagic (b : Nat)
  | UnknownCrdtType (b : Nat)
deriving Repr, DecidableEq

/-- `VersionedEnvelope::from_bytes`: length check, magic check at byte 0,
type lookup at byte 2, payload from byte 3 on. -/
def VersionedEnvelope.from_bytes (data : List Nat) :
    Except EnvelopeError VersionedEnvelope :=
  if data.length < ENVELOPE_HEADER_SIZE then
    .error .TooShort
  else if data.getD 0 0 ≠ MAGIC_BYTE then
    .error (.InvalidMagic (data.getD 0 0))
  else
    match CrdtType.from_byte (data.getD 2 0) with
    | none => .error (.UnknownCrdtType (data.getD 2 0))
    | some t => .ok ⟨data.getD 1 0, t, data.drop ENVELOPE_HEADER_SIZE⟩

/-- Decoder written out exactly as claim C6 words it: fail `TooShort` when
fewer than 3 bytes; otherwise `InvalidMagic b` when byte 0 is `b ≠ 0xCF`;
otherwise `UnknownCrdtType b` when byte 2 is an unrecognized `b`; otherwise
succeed with version byte 1, the type for byte 2 and the remaining payload. -/
def VersionedEnvelope.decodeSpec (data : List Nat) :
    Except EnvelopeError VersionedEnvelope :=
  match data with
  | b0 :: b1 :: b2 :: rest =>
    if b0 ≠ 0xCF then .error (.InvalidMagic b0)
    else
      match CrdtType.from_byte b2 with
      | none => .error (.UnknownCrdtType b2)
      | some t => .ok ⟨b1, t, rest⟩
  | _ => .error .TooShort

/-! ## Migration engine (src/crates/crdt-migrate/src/engine.rs)

`MigrationStep` is a trait whose `migrate` body is irrelevant to
`validate_chain` (only `source_version`/`target_version` are read), so a step
is embedded as its two version tags. -/

structure MigrationStep where
  source_version : Nat
  target_version : Nat
deriving Repr, DecidableEq

structure MigrationEngine where
  current_version : Nat
  steps : List MigrationStep

inductive MigrationError where
  | NoPath (from_v to_v : Nat)
  | StepFailed (from_v to_v : Nat) (reason : String)
  | GapInChain (missing : Nat)
  | FutureVersion (found current : Nat)
  | Deserialization (msg : String)
  | Serialization (msg : String)
deriving Repr, DecidableEq

/-- The `while version < current` loop of `MigrationEngine::validate_chain`:
each iteration checks for a step with the current source and moves to
`version + 1`, so the loop runs exactly `current_version - min_version`
times, which is taken as the structural fuel. -/
def MigrationEngine.chainLoop (e : MigrationEngine) : Nat → Nat → Except MigrationError Unit
  | 0, _ => .ok ()
  | fuel + 1, v =>
    if e.steps.any (fun s => s.source_version == v) then
      e.chainLoop fuel (v + 1)
    else
      .error (.GapInChain v)

/-- `MigrationEngine::validate_chain`. -/
def MigrationEngine.validate_chain (e : MigrationEngine) (min_version : Nat) :
    Except MigrationError Unit :=
  e.chainLoop (e.current_version - min_version) min_version

/-! ## Hybrid logical clock (src/crates/crdt-kit/src/clock.rs)

`logical` is a `u16` in Rust; `self.last.logical + 1` wraps in release
builds, so the increments below carry an explicit `% 2^16`.  `physical` and
`node_id` are never the target of arithmetic, so they stay plain `Nat`. -/

structure HybridTimestamp where
  physical : Nat
  logical : Nat
  node_id : Nat
deriving Repr, DecidableEq

/-- `impl Ord for HybridTimestamp`: lexicographic on
`(physical, logical, node_id)`; this is the strict part of that order. -/
def HybridTimestamp.lt (a b : HybridTimestamp) : Prop :=
  a.physical < b.physical
    ∨ (a.physical = b.physical
        ∧ (a.logical < b.logical
            ∨ (a.logical = b.logical ∧ a.node_id < b.node_id)))

instance (a b : HybridTimestamp) : Decidable (HybridTimestamp.lt a b) := by
  unfold HybridTimestamp.lt
  infer_instance

structure HybridClock where
  node_id : Nat
  last : HybridTimestamp
deriving Repr, DecidableEq

/-- `HybridClock::new` (and `with_time_source`): last starts at
`HybridTimestamp::zero()`.  The injected physical-time function becomes an
explicit `pt` argument at each call. -/
def HybridClock.new (node_id : Nat) : HybridClock :=
  { node_id := node_id, last := ⟨0, 0, 0⟩ }

/-- `HybridClock::now` with the sampled physical time passed in. -/
def HybridClock.now (c : HybridClock) (pt : Nat) : HybridTimestamp × HybridClock :=
  let t :=
    if pt > c.last.physical then
      (⟨pt, 0, c.node_id⟩ : HybridTimestamp)
    else
      ⟨c.last.physical, (c.last.logical + 1) % 65536, c.node_id⟩
  (t, { c with last := t })

/-- `HybridClock::receive` with the sampled physical time passed in. -/
def HybridClock.receive (c : HybridClock) (pt : Nat) (remote : HybridTimestamp) :
    HybridTimestamp × HybridClock :=
  let max_pt := max (max pt c.last.physical) remote.physical
  let logical :=
    if max_pt = c.last.physical ∧ max_pt = remote.physical then
      (max c.last.logical remote.logical + 1) % 65536
    else if max_pt = c.last.physical then
      (c.last.logical + 1) % 65536
    else if max_pt = remote.physical then
      (remote.logical + 1) % 65536
    else
      0
  let t : HybridTimestamp := ⟨max_pt, logical, c.node_id⟩
  (t, { c with last := t })

/-- A burst of `now()` calls whose injected physical time is stuck at 5,
starting from `HybridClock::new(1)`: the state after `n` calls. -/
def clockAfter : Nat → HybridClock
  | 0 => HybridClock.new 1
  | n + 1 => ((clockAfter n).now 5).2

/-! ## RGA (src/crates/crdt-kit/src/rga.rs)

`type NodeId = (String, u64)` — `(actor, counter)`.  `nodes: BTreeMap<NodeId,
RgaNode>` is embedded as an association list; grouping order is irrelevant
because every sibling group is re-sorted, so the list order stands in for the
map's iteration order. -/

abbrev NodeId := String × Nat

structure RgaNode (α : Type) where
  value : α
  parent : Option NodeId
deriving Repr, DecidableEq

structure Rga (α : Type) where
  actor : String
  counter : Nat
  nodes : List (NodeId × RgaNode α)
  tombstones : Finset NodeId
  sequence : List NodeId

/-- `siblings.sort_by(|a, b| b.cmp(a))`: the comparator puts `a` before `b`
when `a ≥ b` in the *lexicographic tuple order on `(actor, counter)`* — the
actor string is compared first, exactly as Rust's derived `Ord` on `(String,
u64)` does. -/
def idGE (a b : NodeId) : Prop :=
  b.1 < a.1 ∨ (b.1 = a.1 ∧ b.2 ≤ a.2)

instance : DecidableRel idGE := fun a b =>
  decidable_of_iff (b.1.toList < a.1.toList ∨ (b.1 = a.1 ∧ b.2 ≤ a.2))
    (or_congr String.lt_iff_toList_lt.symm Iff.rfl)

/-- One sibling group of `rebuild_sequence`: the ids of all nodes whose
parent is `p`, sorted descending (`sort_by(|a, b| b.cmp(a))`). -/
def Rga.childIds {α : Type} (nodes : List (NodeId × RgaNode α)) (p : Option NodeId) :
    List NodeId :=
  List.insertionSort idGE ((nodes.filter (fun e => e.2.parent = p)).map (·.1))

/-- The DFS stack loop of `rebuild_sequence`.  Children are pushed in
reverse, so popping visits each sibling group front-to-back: the stack after
popping `id` is `children id ++ rest`.  Each loop iteration pops one id, and
on the states the Rust code builds every id is pushed at most once, so
`nodes.length + 1` fuel is never exhausted there. -/
def dfsRun (children : Option NodeId → List NodeId) :
    Nat → List NodeId → List NodeId
  | 0, _ => []
  | _ + 1, [] => []
  | fuel + 1, id :: st => id :: dfsRun children fuel (children (some id) ++ st)

/-- `Rga::rebuild_sequence`. -/
def Rga.rebuild_sequence {α : Type} (r : Rga α) : Rga α :=
  { r with
    sequence :=
      dfsRun (fun p => Rga.childIds r.nodes p) (r.nodes.length + 1)
        (Rga.childIds r.nodes none) }

/-- `Rga::visible_sequence`: the cached sequence minus tombstoned ids. -/
def Rga.visible_sequence {α : Type} (r : Rga α) : List NodeId :=
  r.sequence.filter (fun id => id ∉ r.tombstones)

/-- `BTreeMap::insert` on the association list: replace the entry for an
existing key, otherwise add one. -/
def listInsert {α : Type} :
    List (NodeId × RgaNode α) → NodeId → RgaNode α → List (NodeId × RgaNode α)
  | [], k, v => [(k, v)]
  | (k', v') :: t, k, v =>
    if k' = k then (k, v) :: t else (k', v') :: listInsert t k v

/-- `Rga::insert_at`.  The Rust function `assert!`s (aborts) when
`index > visible.len()`; the abort is modelled as `none`. -/
def Rga.insert_at {α : Type} (r : Rga α) (index : Nat) (value : α) :
    Option (Rga α) :=
  let visible := r.visible_sequence
  if index > visible.length then
    none
  else
    let parent := if index = 0 then none else visible.get? (index - 1)
    let counter := r.counter + 1
    let id : NodeId := (r.actor, counter)
    some (Rga.rebuild_sequence
      { r with counter := counter, nodes := listInsert r.nodes id ⟨value, parent⟩ })

/-- `Rga::remove`: out-of-bounds indices return `None` and leave the state
untouched; otherwise the id at that visible index is tombstoned, the
sequence rebuilt, and the node's value returned. -/
def Rga.remove {α : Type} (r : Rga α) (index : Nat) : Option α × Rga α :=
  let visible := r.visible_sequence
  if h : index < visible.length then
    let id := visible.get ⟨index, h⟩
    let r' := Rga.rebuild_sequence { r with tombstones := insert id r.tombstones }
    ((List.lookup id r'.nodes).map RgaNode.value, r')
  else
    (none, r)

/-! ## In-memory store and compaction (src/crates/crdt-store/src/memory.rs,
src/crates/crdt-store/src/db.rs)

The three `BTreeMap`s of `MemoryStore` are embedded as functions from keys,
with `[]`/`none` for absent keys (lookups cannot distinguish an absent key
from an empty entry, and no claim inspects the key set).  `MemoryStore`
operations never produce an error (`MemoryError` is never constructed), so
the `Result` wrapper is dropped.  The Rust field `namespace` is spelled `ns`
(`namespace` is reserved in Lean). -/

structure StoredEvent where
  sequence : Nat
  entity_id : String
  ns : String
  data : List Nat
  timestamp : Nat
  node_id : String
deriving Repr, DecidableEq

structure Snapshot where
  state : List Nat
  at_sequence : Nat
  version : Nat
deriving Repr, DecidableEq

structure MemoryStore where
  state : (String × String) → Option (List Nat)
  events : (String × String) → List StoredEvent
  snapshots : (String × String) → Option Snapshot
  next_sequence : Nat

/-- `MemoryStore::events_since`: events with `sequence > since`, in stored
order. -/
def MemoryStore.events_since (st : MemoryStore) (ns eid : String) (since : Nat) :
    List StoredEvent :=
  (st.events (ns, eid)).filter (fun e => since < e.sequence)

/-- `MemoryStore::event_count`. -/
def MemoryStore.event_count (st : MemoryStore) (ns eid : String) : Nat :=
  (st.events (ns, eid)).length

/-- `MemoryStore::save_snapshot`: overwrite the entry for `(ns, eid)`. -/
def MemoryStore.save_snapshot (st : MemoryStore) (ns eid : String)
    (stateBytes : List Nat) (at_sequence : Nat) (version : Nat) : MemoryStore :=
  { st with
    snapshots :=
      Function.update st.snapshots (ns, eid) (some ⟨stateBytes, at_sequence, version⟩) }

/-- `MemoryStore::load_snapshot`. -/
def MemoryStore.load_snapshot (st : MemoryStore) (ns eid : String) : Option Snapshot :=
  st.snapshots (ns, eid)

/-- `MemoryStore::truncate_events_before`: retain events with
`sequence >= before_sequence`, return how many were dropped. -/
def MemoryStore.truncate_events_before (st : MemoryStore) (ns eid : String)
    (before_sequence : Nat) : Nat × MemoryStore :=
  let evs := st.events (ns, eid)
  let retained := evs.filter (fun e => before_sequence ≤ e.sequence)
  (evs.length - retained.length,
    { st with events := Function.update st.events (ns, eid) retained })

/-- `CrdtDb::compact` over the in-memory backend (the facade only forwards to
the store here, so it is modelled directly on `MemoryStore`). -/
def CrdtDb.compact (st : MemoryStore) (ns eid : String) (stateBytes : List Nat)
    (version : Nat) : Nat × MemoryStore :=
  let events := st.events_since ns eid 0
  let max_seq := ((events.getLast?).map (fun e => e.sequence)).getD 0
  if max_seq = 0 then
    (0, st)
  else
    let st1 := st.save_snapshot ns eid stateBytes max_seq version
    st1.truncate_events_before ns eid max_seq

/-! ## G-Counter (src/crates/crdt-kit/src/gcounter.rs)

`counts: BTreeMap<String, u64>` as an association list.  `value()` sums
`u64`s, which can wrap; both sides of the delta-equivalence claim produce the
same exact natural sum, so the wrap plays no role and the sum is a `Nat`. -/

structure GCounter where
  actor : String
  counts : List (String × Nat)
deriving Repr, DecidableEq

/-- `*self.counts.entry(k).or_insert(0) = max(entry, v)` — update the entry
for `k` to the max, inserting `max 0 v = v` when absent. -/
def upsertMax : List (String × Nat) → String → Nat → List (String × Nat)
  | [], k, v => [(k, v)]
  | (k', v') :: t, k, v =>
    if k' = k then (k', max v' v) :: t else (k', v') :: upsertMax t k v

/-- `counts.get(k).copied().unwrap_or(0)`. -/
def countOf (l : List (String × Nat)) (k : String) : Nat :=
  (l.lookup k).getD 0

/-- `GCounter::value`: sum of all entries. -/
def GCounter.value (c : GCounter) : Nat :=
  (c.counts.map (fun p => p.2)).sum

/-- `impl Crdt for GCounter`: pointwise max over the other's entries. -/
def GCounter.merge (self other : GCounter) : GCounter :=
  { self with counts := other.counts.foldl (fun acc p => upsertMax acc p.1 p.2) self.counts }

structure GCounterDelta where
  counts : List (String × Nat)
deriving Repr, DecidableEq

/-- `GCounter::delta`: the entries where `self` is strictly ahead of
`other`. -/
def GCounter.delta (self other : GCounter) : GCounterDelta :=
  ⟨self.counts.filter (fun p => countOf other.counts p.1 < p.2)⟩

/-- `GCounter::apply_delta`: same pointwise max as `merge`. -/
def GCounter.apply_delta (self : GCounter) (d : GCounterDelta) : GCounter :=
  { self with counts := d.counts.foldl (fun acc p => upsertMax acc p.1 p.2) self.counts }

/-! ## PN-Counter (src/src/pncounter.rs) -/

structure PNCounter where
  increments : GCounter
  decrements : GCounter
deriving Repr, DecidableEq

/-- `PNCounter::value`: `increments − decrements` as a signed value. -/
def PNCounter.value (c : PNCounter) : Int :=
  (c.increments.value : Int) - (c.decrements.value : Int)

/-- `impl Crdt for PNCounter`: component-wise merge. -/
def PNCounter.merge (self other : PNCounter) : PNCounter :=
  ⟨self.increments.merge other.increments, self.decrements.merge other.decrements⟩

structure PNCounterDelta where
  increments : GCounterDelta
  decrements : GCounterDelta
deriving Repr, DecidableEq

/-- `PNCounter::delta`: component-wise. -/
def PNCounter.delta (self other : PNCounter) : PNCounterDelta :=
  ⟨self.increments.delta other.increments, self.decrements.delta other.decrements⟩

/-- `PNCounter::apply_delta`: component-wise. -/
def PNCounter.apply_delta (self : PNCounter) (d : PNCounterDelta) : PNCounter :=
  ⟨self.increments.apply_delta d.increments, self.decrements.apply_delta d.decrements⟩

/-- Well-formedness of an association-list embedding of a `BTreeMap`: keys
are distinct (always true of the Rust map). -/
def NodupKeys {κ β : Type} (l : List (κ × β)) : Prop :=
  (l.map Prod.fst).Nodup

instance {κ β : Type} [DecidableEq κ] (l : List (κ × β)) : Decidable (NodupKeys l) := by
  unfold NodupKeys
  infer_instance

/-! ## OR-Set (src/src/or_set.rs)

`elements: BTreeMap<T, BTreeSet<(String, u64)>>` as an association list of
`Finset` tag sets; `tombstones: BTreeSet<(String, u64)>` as a `Finset`. -/

abbrev Tag := String × Nat

structure ORSet (α : Type) [DecidableEq α] where
  actor : String
  counter : Nat
  elements : List (α × Finset Tag)
  tombstones : Finset Tag

/-- `elements.get(x)` with `∅` for an absent key (only emptiness and tag
membership are ever observed). -/
def getTags {α : Type} [DecidableEq α] : List (α × Finset Tag) → α → Finset Tag
  | [], _ => ∅
  | (y, ts) :: t, x => if y = x then ts else getTags t x

/-- `elements.entry(v).or_default().insert(tag)`. -/
def upsertTag {α : Type} [DecidableEq α] :
    List (α × Finset Tag) → α → Tag → List (α × Finset Tag)
  | [], v, tag => [(v, {tag})]
  | (y, ts) :: t, v, tag =>
    if y = v then (y, insert tag ts) :: t else (y, ts) :: upsertTag t v tag

/-- `elements.entry(v).or_default()` then inserting every tag of `s`
(`merge` step 1 / `apply_delta` additions). -/
def upsertTags {α : Type} [DecidableEq α] :
    List (α × Finset Tag) → α → Finset Tag → List (α × Finset Tag)
  | [], v, s => [(v, s)]
  | (y, ts) :: t, v, s =>
    if y = v then (y, ts ∪ s) :: t else (y, ts) :: upsertTags t v s

/-- `ORSet::new`. -/
def ORSet.new {α : Type} [DecidableEq α] (actor : String) : ORSet α :=
  { actor := actor, counter := 0, elements := [], tombstones := ∅ }

/-- `ORSet::insert`: bump the counter, add the fresh tag under the value. -/
def ORSet.insert {α : Type} [DecidableEq α] (s : ORSet α) (v : α) : ORSet α :=
  { s with
    counter := s.counter + 1,
    elements := upsertTag s.elements v (s.actor, s.counter + 1) }

/-- `ORSet::remove`: if the key is present, drop its entry and move all its
tags into the tombstones; returns whether anything was removed. -/
def ORSet.remove {α : Type} [DecidableEq α] (s : ORSet α) (v : α) : Bool × ORSet α :=
  if v ∈ s.elements.map Prod.fst then
    (true,
      { s with
        elements := s.elements.filter (fun e => ¬ e.1 = v),
        tombstones := s.tombstones ∪ getTags s.elements v })
  else
    (false, s)

/-- `ORSet::contains`: the entry for `v` exists and is non-empty. -/
def ORSet.contains {α : Type} [DecidableEq α] (s : ORSet α) (v : α) : Prop :=
  (getTags s.elements v).Nonempty

instance {α : Type} [DecidableEq α] (s : ORSet α) (v : α) : Decidable (s.contains v) := by
  unfold ORSet.contains
  infer_instance

/-- `ORSet::len`: number of entries with a non-empty tag set. -/
def ORSet.len {α : Type} [DecidableEq α] (s : ORSet α) : Nat :=
  (s.elements.filter (fun e => e.2 ≠ ∅)).length

/-- `impl Crdt for ORSet`: (1) add the other's tags, skipping ones in the
receiver's tombstones; (2) delete the other's tombstoned tags everywhere;
(3) union tombstones; (4) drop empty entries; (5) max the counters. -/
def ORSet.merge {α : Type} [DecidableEq α] (self other : ORSet α) : ORSet α :=
  let elements₁ := other.elements.foldl
    (fun acc p => upsertTags acc p.1 (p.2.filter (fun tag => tag ∉ self.tombstones)))
    self.elements
  let elements₂ := elements₁.map (fun e => (e.1, e.2 \ other.tombstones))
  let elements₃ := elements₂.filter (fun e => e.2 ≠ ∅)
  { self with
    elements := elements₃,
    tombstones := self.tombstones ∪ other.tombstones,
    counter := max self.counter other.counter }

structure ORSetDelta (α : Type) [DecidableEq α] where
  additions : List (α × Finset Tag)
  tombstones : Finset Tag

/-- `ORSet::delta`: per element, the tags the other replica has neither live
nor tombstoned (dropped when empty); plus the new tombstones. -/
def ORSet.delta {α : Type} [DecidableEq α] (self other : ORSet α) : ORSetDelta α :=
  { additions := self.elements.filterMap (fun p =>
      let nt := p.2.filter
        (fun tag => tag ∉ getTags other.elements p.1 ∧ tag ∉ other.tombstones)
      if nt = ∅ then none else some (p.1, nt)),
    tombstones := self.tombstones \ other.tombstones }

/-- `ORSet::apply_delta`: additions filtered by the receiver's tombstones,
then the delta's tombstones deleted everywhere and unioned in, empty entries
dropped; the counter is *not* touched. -/
def ORSet.apply_delta {α : Type} [DecidableEq α] (self : ORSet α) (d : ORSetDelta α) :
    ORSet α :=
  let elements₁ := d.additions.foldl
    (fun acc p => upsertTags acc p.1 (p.2.filter (fun tag => tag ∉ self.tombstones)))
    self.elements
  let elements₂ := elements₁.map (fun e => (e.1, e.2 \ d.tombstones))
  let elements₃ := elements₂.filter (fun e => e.2 ≠ ∅)
  { self with
    elements := elements₃,
    tombstones := self.tombstones ∪ d.tombstones }

/-- The claim-C9 invariant: distinct keys (the `BTreeMap` shape), no empty
tag set stored, and no stored tag in the tombstones. -/
def ORSet.Inv {α : Type} [DecidableEq α] (s : ORSet α) : Prop :=
  NodupKeys s.elements
    ∧ (∀ e ∈ s.elements, e.2 ≠ ∅)
    ∧ (∀ e ∈ s.elements, ∀ t ∈ e.2, t ∉ s.tombstones)

instance {α : Type} [DecidableEq α] (s : ORSet α) : Decidable s.Inv := by
  unfold ORSet.Inv
  infer_instance

/-- States reachable through the public API: `new`, `insert`, `remove`,
`merge` with a reachable peer, and `apply_delta` of a delta produced
between reachable states. -/
inductive ORSet.Reachable {α : Type} [DecidableEq α] : ORSet α → Prop where
  | new (actor : String) : ORSet.Reachable (ORSet.new actor)
  | insert (s : ORSet α) (v : α) :
      ORSet.Reachable s → ORSet.Reachable (s.insert v)
  | remove (s : ORSet α) (v : α) :
      ORSet.Reachable s → ORSet.Reachable (s.remove v).2
  | merge (s o : ORSet α) :
      ORSet.Reachable s → ORSet.Reachable o → ORSet.Reachable (s.merge o)
  | applyDelta (s a : ORSet α) :
      ORSet.Reachable s → ORSet.Reachable a →
      ORSet.Reachable (s.apply_delta (a.delta s))

/-! # Theorems -/

/-! ### Helper lemmas for LWW merge -/

theorem TwoPSet.ext_of {α : Type} {s t : TwoPSet α}
    (ha : s.added = t.added) (hr : s.removed = t.removed) : s = t := by
  cases s; cases t; cases ha; cases hr; rfl

theorem LWWRegister.merge_timestamp {α : Type} (a b : LWWRegister α) :
    (LWWRegister.merge a b).timestamp = max a.timestamp b.timestamp := by
  unfold LWWRegister.merge
  split
  · next h => rcases h with h | ⟨h, _⟩ <;> simp <;> omega
  · next h =>
    push_neg at h
    have := h.1
    simp
    omega

theorem LWWRegister.merge_actor_eq {α : Type} (a b : LWWRegister α) :
    (LWWRegister.merge a b).actor = a.actor := by
  unfold LWWRegister.merge
  split <;> rfl

theorem LWWRegister.merge_value_gt {α : Type} {a b : LWWRegister α}
    (h : a.timestamp < b.timestamp) : (LWWRegister.merge a b).value = b.value := by
  unfold LWWRegister.merge
  rw [if_pos (Or.inl h)]

theorem LWWRegister.merge_value_lt {α : Type} {a b : LWWRegister α}
    (h : b.timestamp < a.timestamp) : (LWWRegister.merge a b).value = a.value := by
  unfold LWWRegister.merge
  rw [if_neg]
  rintro (h' | ⟨h', _⟩) <;> omega

theorem LWWRegister.merge_value_tie_wins {α : Type} {a b : LWWRegister α}
    (ht : a.timestamp = b.timestamp) (ha : a.actor < b.actor) :
    (LWWRegister.merge a b).value = b.value := by
  unfold LWWRegister.merge
  rw [if_pos (Or.inr ⟨ht.symm, ha⟩)]

theorem LWWRegister.merge_value_tie_keeps {α : Type} {a b : LWWRegister α}
    (ht : a.timestamp = b.timestamp) (ha : b.actor < a.actor) :
    (LWWRegister.merge a b).value = a.value := by
  unfold LWWRegister.merge
  rw [if_neg]
  rintro (h' | ⟨_, h₂⟩)
  · omega
  · exact absurd h₂ (lt_asymm ha)

/-- C1 counterexample: three LWW registers with equal timestamps and pairwise
distinct actors for which the two association orders of `merge` produce
different observable values (3 on the left, 2 on the right).  Hence `merge`
is not associative on observable values as the claim states. -/
theorem lww_merge_not_associative_at_equal_timestamps :
    ¬ ((LWWRegister.merge (LWWRegister.merge ⟨"a", 1, 0⟩ ⟨"c", 2, 0⟩) ⟨"b", 3, 0⟩).value =
       (LWWRegister.merge (⟨"a", 1, 0⟩ : LWWRegister Nat)
         (LWWRegister.merge ⟨"c", 2, 0⟩ ⟨"b", 3, 0⟩)).value) := by
  have hac : ("a" : String) < "c" := by rw [String.lt_iff_toList_lt]; decide
  have hab : ("a" : String) < "b" := by rw [String.lt_iff_toList_lt]; decide
  have hcb : ¬ ("c" : String) < "b" := by rw [String.lt_iff_toList_lt]; decide
  simp [LWWRegister.merge, hac, hab, hcb]

/-- C1 (amended): `LWWRegister.merge` is commutative on observable values
whenever the two registers do not share both timestamp and actor, associative
on observable values whenever the three timestamps are pairwise distinct, and
idempotent unconditionally; `TwoPSet.merge` is commutative, associative and
idempotent on whole states. -/
theorem merge_semilattice_laws {α β : Type} [DecidableEq β]
    (a b c : LWWRegister α) (s t u : TwoPSet β) :
    (¬ (a.timestamp = b.timestamp ∧ a.actor = b.actor) →
      (LWWRegister.merge a b).value = (LWWRegister.merge b a).value)
    ∧ (a.timestamp ≠ b.timestamp → a.timestamp ≠ c.timestamp →
        b.timestamp ≠ c.timestamp →
      (LWWRegister.merge (LWWRegister.merge a b) c).value =
        (LWWRegister.merge a (LWWRegister.merge b c)).value)
    ∧ (LWWRegister.merge (LWWRegister.merge a b) b = LWWRegister.merge a b)
    ∧ (TwoPSet.merge s t = TwoPSet.merge t s)
    ∧ (TwoPSet.merge (TwoPSet.merge s t) u = TwoPSet.merge s (TwoPSet.merge t u))
    ∧ (TwoPSet.merge (TwoPSet.merge s t) t = TwoPSet.merge s t) := by
  refine ⟨?_, ?_, ?_, ?_, ?_, ?_⟩
  · intro h
    rcases lt_trichotomy a.timestamp b.timestamp with h₁ | h₁ | h₁
    · rw [LWWRegister.merge_value_gt h₁, LWWRegister.merge_value_lt h₁]
    · rcases lt_trichotomy a.actor b.actor with h₂ | h₂ | h₂
      · rw [LWWRegister.merge_value_tie_wins h₁ h₂,
          LWWRegister.merge_value_tie_keeps h₁.symm h₂]
      · exact absurd ⟨h₁, h₂⟩ h
      · rw [LWWRegister.merge_value_tie_keeps h₁ h₂,
          LWWRegister.merge_value_tie_wins h₁.symm h₂]
    · rw [LWWRegister.merge_value_lt h₁, LWWRegister.merge_value_gt h₁]
  · intro hab hac hbc
    rcases lt_trichotomy a.timestamp b.timestamp with h₁ | h₁ | h₁
    · rcases lt_trichotomy b.timestamp c.timestamp with h₂ | h₂ | h₂
      · rw [LWWRegister.merge_value_gt (a := LWWRegister.merge a b)
            (by rw [LWWRegister.merge_timestamp]; omega),
          LWWRegister.merge_value_gt (b := LWWRegister.merge b c)
            (by rw [LWWRegister.merge_timestamp]; omega),
          LWWRegister.merge_value_gt h₂]
      · exact absurd h₂ hbc
      · rw [LWWRegister.merge_value_lt (a := LWWRegister.merge a b)
            (by rw [LWWRegister.merge_timestamp]; omega),
          LWWRegister.merge_value_gt h₁,
          LWWRegister.merge_value_gt (b := LWWRegister.merge b c)
            (by rw [LWWRegister.merge_timestamp]; omega),
          LWWRegister.merge_value_lt h₂]
    · exact absurd h₁ hab
    · rcases lt_trichotomy a.timestamp c.timestamp with h₂ | h₂ | h₂
      · rw [LWWRegister.merge_value_gt (a := LWWRegister.merge a b)
            (by rw [LWWRegister.merge_timestamp]; omega),
          LWWRegister.merge_value_gt (b := LWWRegister.merge b c)
            (by rw [LWWRegister.merge_timestamp]; omega),
          LWWRegister.merge_value_gt (by omega : b.timestamp < c.timestamp)]
      · exact absurd h₂ hac
      · rw [LWWRegister.merge_value_lt (a := LWWRegister.merge a b)
            (by rw [LWWRegister.merge_timestamp]; omega),
          LWWRegister.merge_value_lt h₁,
          LWWRegister.merge_value_lt (b := LWWRegister.merge b c)
            (by rw [LWWRegister.merge_timestamp]; omega)]
  · unfold LWWRegister.merge
    by_cases h : b.timestamp > a.timestamp
        ∨ (b.timestamp = a.timestamp ∧ a.actor < b.actor)
    · rw [if_pos h]
      split
      · rfl
      · rfl
    · rw [if_neg h, if_neg h]
  · exact TwoPSet.ext_of (Finset.union_comm _ _) (Finset.union_comm _ _)
  · exact TwoPSet.ext_of (Finset.union_assoc _ _ _) (Finset.union_assoc _ _ _)
  · exact TwoPSet.ext_of (by simp [TwoPSet.merge, Finset.union_assoc])
      (by simp [TwoPSet.merge, Finset.union_assoc])

/-- C1 witness: the amended laws evaluated at concrete registers and sets. -/
theorem merge_semilattice_laws_witness :
    (LWWRegister.merge (⟨"a", 10, 1⟩ : LWWRegister Nat) ⟨"b", 20, 2⟩).value =
      (LWWRegister.merge ⟨"b", 20, 2⟩ ⟨"a", 10, 1⟩).value
    ∧ (LWWRegister.merge
        (LWWRegister.merge (⟨"a", 10, 1⟩ : LWWRegister Nat) ⟨"b", 20, 2⟩) ⟨"c", 30, 3⟩).value =
      (LWWRegister.merge ⟨"a", 10, 1⟩ (LWWRegister.merge ⟨"b", 20, 2⟩ ⟨"c", 30, 3⟩)).value
    ∧ TwoPSet.merge (TwoPSet.merge (⟨{1}, {2}⟩ : TwoPSet Nat) ⟨{3}, ∅⟩) ⟨∅, {1}⟩ =
      TwoPSet.merge ⟨{1}, {2}⟩ (TwoPSet.merge ⟨{3}, ∅⟩ ⟨∅, {1}⟩) := by
  refine ⟨?_, ?_, ?_⟩
  · exact (merge_semilattice_laws ⟨"a", 10, 1⟩ ⟨"b", 20, 2⟩ ⟨"c", 30, 3⟩
      (⟨{1}, {2}⟩ : TwoPSet Nat) ⟨{3}, ∅⟩ ⟨∅, {1}⟩).1 (fun h => absurd h.1 (by decide))
  · exact (merge_semilattice_laws ⟨"a", 10, 1⟩ ⟨"b", 20, 2⟩ ⟨"c", 30, 3⟩
      (⟨{1}, {2}⟩ : TwoPSet Nat) ⟨{3}, ∅⟩ ⟨∅, {1}⟩).2.1 (by decide) (by decide) (by decide)
  · exact (merge_semilattice_laws (⟨"a", 10, 1⟩ : LWWRegister Nat) ⟨"b", 20, 2⟩ ⟨"c", 30, 3⟩
      (⟨{1}, {2}⟩ : TwoPSet Nat) ⟨{3}, ∅⟩ ⟨∅, {1}⟩).2.2.2.2.1

/-- C8: `LWWRegister::merge` never modifies the receiver's `actor` field,
whether or not the other register wins. -/
theorem lww_merge_preserves_actor {α : Type} (a b : LWWRegister α) :
    (LWWRegister.merge a b).actor = a.actor := by
  unfold LWWRegister.merge
  split <;> rfl

/-! ### C6: envelope decoding -/

/-- C6: `VersionedEnvelope::from_bytes` fails with `TooShort` exactly on
inputs shorter than 3 bytes, with `InvalidMagic b` exactly when byte 0 is
`b ≠ 0xCF`, with `UnknownCrdtType b` exactly when byte 2 is an unrecognized
code, and succeeds otherwise with version byte 1, the type for byte 2 and the
payload from byte 3 on; the recognized codes are exactly
{1,2,3,4,5,6,7,8,9,255}. -/
theorem from_bytes_characterization :
    (∀ data : List Nat,
      VersionedEnvelope.from_bytes data = VersionedEnvelope.decodeSpec data)
    ∧ (∀ b : Nat,
      CrdtType.from_byte b = none ↔ b ∉ ([1, 2, 3, 4, 5, 6, 7, 8, 9, 255] : List Nat)) := by
  constructor
  · intro data
    rcases data with _ | ⟨b0, _ | ⟨b1, _ | ⟨b2, rest⟩⟩⟩
    · rfl
    · rfl
    · rfl
    · simp only [VersionedEnvelope.from_bytes, VersionedEnvelope.decodeSpec,
        ENVELOPE_HEADER_SIZE, MAGIC_BYTE, List.length_cons, List.getD, List.get?,
        List.drop]
      norm_num
  · intro b
    constructor
    · intro h hmem
      fin_cases hmem <;> simp [CrdtType.from_byte] at h
    · intro h
      unfold CrdtType.from_byte
      split <;> simp_all

/-! ### C4: migration chain validation -/

theorem chainLoop_ok_iff (e : MigrationEngine) (fuel v : Nat) :
    e.chainLoop fuel v = .ok () ↔
      ∀ i, v ≤ i → i < v + fuel → ∃ s ∈ e.steps, s.source_version = i := by
  induction fuel generalizing v with
  | zero =>
    simp only [MigrationEngine.chainLoop]
    exact ⟨fun _ i hi1 hi2 => absurd hi2 (by omega), fun _ => by simp⟩
  | succ fuel ih =>
    simp only [MigrationEngine.chainLoop]
    by_cases h : e.steps.any (fun s => s.source_version == v)
    · rw [if_pos h, ih]
      constructor
      · intro H i hi1 hi2
        rcases eq_or_lt_of_le hi1 with rfl | hlt
        · rcases List.any_eq_true.mp h with ⟨s, hs, hb⟩
          exact ⟨s, hs, by simpa using hb⟩
        · exact H i (by omega) (by omega)
      · intro H i hi1 hi2
        exact H i (by omega) (by omega)
    · rw [if_neg h]
      constructor
      · intro H
        simp at H
      · intro H
        rcases H v (le_refl v) (by omega) with ⟨s, hs, hsv⟩
        exact absurd (List.any_eq_true.mpr ⟨s, hs, by simpa using hsv⟩) h

/-- C4 counterexample: an engine with current version 2 and the step `1 → 2`
registered twice.  `validate_chain(1)` returns Ok, yet there is not *exactly
one* registered step with source 1 (there are two), so the claimed
equivalence fails as stated. -/
theorem validate_chain_counterexample :
    (MigrationEngine.validate_chain ⟨2, [⟨1, 2⟩, ⟨1, 2⟩]⟩ 1 = .ok ())
    ∧ ¬ (∀ i, 1 ≤ i → i < (2 : Nat) →
        ((([⟨1, 2⟩, ⟨1, 2⟩] : List MigrationStep).filter
            (fun s => s.source_version == i)).length = 1)) := by
  exact ⟨rfl, fun H => absurd (H 1 (by omega) (by omega)) (by decide)⟩

/-- C4 (amended): `validate_chain(1)` returns Ok iff for every
`i ∈ [1, current_version − 1]` there exists *at least one* registered step
with source version `i` (the code tests existence with `any`, so duplicate
steps for the same source are accepted). -/
theorem validate_chain_ok_iff (e : MigrationEngine) :
    e.validate_chain 1 = .ok () ↔
      ∀ i, 1 ≤ i → i < e.current_version → ∃ s ∈ e.steps, s.source_version = i := by
  unfold MigrationEngine.validate_chain
  rw [chainLoop_ok_iff]
  constructor <;> intro H i h1 h2 <;> exact H i h1 (by omega)

/-! ### C5: hybrid logical clock -/

theorem now_fst_eq (c : HybridClock) (pt : Nat) :
    (c.now pt).1 =
      if pt > c.last.physical then ⟨pt, 0, c.node_id⟩
      else ⟨c.last.physical, (c.last.logical + 1) % 65536, c.node_id⟩ := rfl

theorem now_snd_eq (c : HybridClock) (pt : Nat) :
    (c.now pt).2 = { c with last := (c.now pt).1 } := rfl

theorem clockAfter_succ_eq (n : Nat) :
    clockAfter (n + 1) = ⟨1, ⟨5, n % 65536, 1⟩⟩ := by
  induction n with
  | zero => rfl
  | succ n ih =>
    show ((clockAfter (n + 1)).now 5).2 = _
    rw [now_snd_eq, now_fst_eq, ih]
    rw [if_neg (by dsimp only; omega)]
    dsimp only
    have hmod : (n % 65536 + 1) % 65536 = (n + 1) % 65536 := by omega
    rw [hmod]

/-- C5 counterexample: drive the injected physical-time function to return 5
forever and call `now()` 65537 times from `HybridClock::new(1)`.  The 65536th
call returns `(5, 65535, 1)` (the clock's `last`), and the 65537th call wraps
the 16-bit logical counter and returns `(5, 0, 1)`, which is *not* strictly
greater — so the claim fails for this behaviour of the time source. -/
theorem hlc_not_monotone_at_logical_overflow :
    ((clockAfter 65535).now 5).1 = (clockAfter 65536).last
    ∧ (clockAfter 65536).last = ⟨5, 65535, 1⟩
    ∧ ((clockAfter 65536).now 5).1 = ⟨5, 0, 1⟩
    ∧ ¬ HybridTimestamp.lt (clockAfter 65536).last ((clockAfter 65536).now 5).1 := by
  have h : clockAfter 65536 = ⟨1, ⟨5, 65535, 1⟩⟩ := by
    have := clockAfter_succ_eq 65535
    norm_num at this
    exact this
  have h' : clockAfter 65535 = ⟨1, ⟨5, 65534, 1⟩⟩ := by
    have := clockAfter_succ_eq 65534
    norm_num at this
    exact this
  have hnow : ((clockAfter 65536).now 5).1 = ⟨5, 0, 1⟩ := by
    rw [now_fst_eq, h]
    norm_num
  refine ⟨?_, by rw [h], hnow, ?_⟩
  · rw [now_fst_eq, h', h]
    norm_num
  · rw [hnow, h]
    decide

/-- C5 (amended): as long as no 16-bit logical counter increment overflows —
i.e. the clock's `last.logical` and the remote's `logical` are below
`2^16 − 1` — each `now()` call returns a timestamp strictly greater than the
clock's last timestamp, each `receive(remote)` call returns one strictly
greater than both the last timestamp and `remote`, and both calls store the
returned timestamp as the new `last`, so any overflow-free sequence of calls
returns strictly increasing timestamps. -/
theorem hlc_strict_monotone (c : HybridClock) (pt : Nat) (remote : HybridTimestamp)
    (hl : c.last.logical < 65535) (hr : remote.logical < 65535) :
    HybridTimestamp.lt c.last (c.now pt).1
    ∧ ((c.now pt).2).last = (c.now pt).1
    ∧ HybridTimestamp.lt c.last (c.receive pt remote).1
    ∧ HybridTimestamp.lt remote (c.receive pt remote).1
    ∧ ((c.receive pt remote).2).last = (c.receive pt remote).1 := by
  refine ⟨?_, rfl, ?_, ?_, rfl⟩
  · simp only [HybridClock.now]
    split_ifs with h <;> (unfold HybridTimestamp.lt; dsimp only; omega)
  · simp only [HybridClock.receive]
    split_ifs with h₁ h₂ h₃ <;> (unfold HybridTimestamp.lt; dsimp only; omega)
  · simp only [HybridClock.receive]
    split_ifs with h₁ h₂ h₃ <;> (unfold HybridTimestamp.lt; dsimp only; omega)

/-- C5 witness: the amended monotonicity at a stuck physical clock (pt = 5)
with a same-millisecond remote. -/
theorem hlc_strict_monotone_witness :
    HybridTimestamp.lt ⟨5, 3, 1⟩ ((HybridClock.mk 1 ⟨5, 3, 1⟩).now 5).1
    ∧ HybridTimestamp.lt ⟨5, 7, 2⟩ ((HybridClock.mk 1 ⟨5, 3, 1⟩).receive 5 ⟨5, 7, 2⟩).1 :=
  ⟨(hlc_strict_monotone (HybridClock.mk 1 ⟨5, 3, 1⟩) 5 ⟨5, 7, 2⟩
      (by decide) (by decide)).1,
   (hlc_strict_monotone (HybridClock.mk 1 ⟨5, 3, 1⟩) 5 ⟨5, 7, 2⟩
      (by decide) (by decide)).2.2.2.1⟩

/-! ### C3: RGA sibling order -/

/-- C3: evaluating `rebuild_sequence` on two sibling root nodes with ids
`("a", 2)` and `("b", 1)` yields the sequence `[("b", 1), ("a", 2)]`: the
comparator `b.cmp(a)` on `(String, u64)` compares the *actor first*, so the
larger actor wins, while the claim (and the code's own comment) says the
larger *counter* comes first, which would give `[("a", 2), ("b", 1)]`. -/
theorem rga_sibling_order_is_actor_first :
    (Rga.rebuild_sequence
        (⟨"a", 2, [(("a", 2), ⟨0, none⟩), (("b", 1), ⟨1, none⟩)], ∅, []⟩ : Rga Nat)).sequence
      = [("b", 1), ("a", 2)]
    ∧ ([("b", 1), ("a", 2)] : List NodeId) ≠ [("a", 2), ("b", 1)] := by
  constructor
  · decide
  · decide

/-! ### C10: RGA bounds behaviour -/

/-- C10: for every index at or past the visible length, `Rga::remove` returns
`None` and leaves the state completely unchanged (and never panics), while
`Rga::insert_at` aborts exactly for indices strictly greater than the visible
length. -/
theorem rga_remove_out_of_bounds {α : Type} (r : Rga α) (i : Nat)
    (h : (Rga.visible_sequence r).length ≤ i) :
    r.remove i = (none, r)
    ∧ (∀ j value, (r.insert_at j value).isNone
        ↔ (Rga.visible_sequence r).length < j) := by
  constructor
  · simp only [Rga.remove]
    rw [dif_neg (by omega)]
  · intro j value
    simp only [Rga.insert_at]
    by_cases hj : j > (Rga.visible_sequence r).length
    · rw [if_pos hj]
      simpa using hj
    · rw [if_neg hj]
      simp only [Option.isNone_some, Bool.false_eq_true, false_iff]
      omega

/-- C10 witness: the empty RGA with a removal at index 0 and an insert at
index 2. -/
theorem rga_remove_out_of_bounds_witness :
    Rga.remove (⟨"a", 0, [], ∅, []⟩ : Rga Nat) 0 = (none, ⟨"a", 0, [], ∅, []⟩)
    ∧ ((Rga.insert_at (⟨"a", 0, [], ∅, []⟩ : Rga Nat) 2 7).isNone
        ↔ (Rga.visible_sequence (⟨"a", 0, [], ∅, []⟩ : Rga Nat)).length < 2) := by
  have h := rga_remove_out_of_bounds (⟨"a", 0, [], ∅, []⟩ : Rga Nat) 0 (by decide)
  exact ⟨h.1, h.2 2 7⟩

/-! ### C7: compaction over the in-memory backend -/

/-- C7: over the in-memory backend, `compact` returns 0 and changes nothing
when the entity's log is empty; otherwise, with `max_seq` the sequence of the
entity's last event, it saves the snapshot `(state, max_seq, version)`,
removes exactly the events with smaller sequence (n − 1 of n), keeps the
boundary event, and afterwards `event_count` is 1 and `load_snapshot`
returns the snapshot at `max_seq`.  The hypotheses are the event-log
invariant the backend maintains: sequences start at 1 and strictly increase
within an entity. -/
theorem compact_characterization (st : MemoryStore) (ns eid : String)
    (stateBytes : List Nat) (version : Nat)
    (hseq : (st.events (ns, eid)).Pairwise (fun a b => a.sequence < b.sequence))
    (hpos : ∀ e ∈ st.events (ns, eid), 1 ≤ e.sequence) :
    (st.events (ns, eid) = [] → CrdtDb.compact st ns eid stateBytes version = (0, st))
    ∧ (∀ pre last, st.events (ns, eid) = pre ++ [last] →
        (CrdtDb.compact st ns eid stateBytes version).1 = (st.events (ns, eid)).length - 1
        ∧ ((CrdtDb.compact st ns eid stateBytes version).2).events (ns, eid) = [last]
        ∧ ((CrdtDb.compact st ns eid stateBytes version).2).event_count ns eid = 1
        ∧ ((CrdtDb.compact st ns eid stateBytes version).2).load_snapshot ns eid
            = some ⟨stateBytes, last.sequence, version⟩) := by
  have hfilter : (st.events (ns, eid)).filter (fun e => decide (0 < e.sequence))
      = st.events (ns, eid) :=
    List.filter_eq_self.mpr (fun e he => decide_eq_true (by have := hpos e he; omega))
  constructor
  · intro h
    simp only [CrdtDb.compact, MemoryStore.events_since, h, List.filter_nil,
      List.getLast?_nil, Option.map_none', Option.getD_none, if_pos]
  · intro pre last hsplit
    have hgl : (st.events_since ns eid 0).getLast? = some last := by
      unfold MemoryStore.events_since
      rw [hfilter, hsplit]
      exact List.getLast?_concat _
    have hlastmem : last ∈ st.events (ns, eid) := by
      rw [hsplit]; exact List.mem_append_right _ (List.mem_singleton_self _)
    have hms : 1 ≤ last.sequence := hpos last hlastmem
    have hpre : ∀ e ∈ pre, e.sequence < last.sequence := by
      rw [hsplit] at hseq
      have h3 := (List.pairwise_append.mp hseq).2.2
      exact fun e he => h3 e he last (List.mem_singleton_self _)
    have hret : (st.events (ns, eid)).filter
        (fun e => decide (last.sequence ≤ e.sequence)) = [last] := by
      rw [hsplit, List.filter_append]
      have h1 : pre.filter (fun e => decide (last.sequence ≤ e.sequence)) = [] :=
        List.filter_eq_nil_iff.mpr
          (fun e he => by simpa using Nat.not_le.mpr (hpre e he))
      have h2 : [last].filter (fun e => decide (last.sequence ≤ e.sequence)) = [last] := by
        simp
      rw [h1, h2, List.nil_append]
    have hcomp : CrdtDb.compact st ns eid stateBytes version
        = ((st.events (ns, eid)).length - 1,
           { st with
             snapshots := Function.update st.snapshots (ns, eid)
               (some ⟨stateBytes, last.sequence, version⟩),
             events := Function.update st.events (ns, eid) [last] }) := by
      simp only [CrdtDb.compact]
      rw [hgl]
      simp only [Option.map_some', Option.getD_some]
      rw [if_neg (by omega)]
      simp only [MemoryStore.save_snapshot, MemoryStore.truncate_events_before]
      rw [hret]
      rw [hsplit]
      simp
    refine ⟨by rw [hcomp], ?_, ?_, ?_⟩
    · rw [hcomp]
      dsimp only
      exact Function.update_same _ _ _
    · rw [hcomp]
      dsimp only [MemoryStore.event_count]
      rw [Function.update_same]
      rfl
    · rw [hcomp]
      dsimp only [MemoryStore.load_snapshot]
      rw [Function.update_same]

/-- C7 witness: a three-event log for `("ns", "e1")`; compacting removes two
events, keeps the boundary event with sequence 3, and the snapshot is
retrievable. -/
theorem compact_characterization_witness :
    (CrdtDb.compact
        ⟨fun _ => none,
         fun k => if k = ("ns", "e1") then
             [⟨1, "e1", "ns", [10], 100, "n"⟩, ⟨2, "e1", "ns", [11], 101, "n"⟩,
              ⟨3, "e1", "ns", [12], 102, "n"⟩]
           else [],
         fun _ => none, 4⟩
        "ns" "e1" [77] 9).1 = 2
    ∧ ((CrdtDb.compact
        ⟨fun _ => none,
         fun k => if k = ("ns", "e1") then
             [⟨1, "e1", "ns", [10], 100, "n"⟩, ⟨2, "e1", "ns", [11], 101, "n"⟩,
              ⟨3, "e1", "ns", [12], 102, "n"⟩]
           else [],
         fun _ => none, 4⟩
        "ns" "e1" [77] 9).2).load_snapshot "ns" "e1" = some ⟨[77], 3, 9⟩ := by
  have h := compact_characterization
    ⟨fun _ => none,
     fun k => if k = ("ns", "e1") then
         [⟨1, "e1", "ns", [10], 100, "n"⟩, ⟨2, "e1", "ns", [11], 101, "n"⟩,
          ⟨3, "e1", "ns", [12], 102, "n"⟩]
       else [],
     fun _ => none, 4⟩
    "ns" "e1" [77] 9 (by decide) (by decide)
  have h2 := h.2 [⟨1, "e1", "ns", [10], 100, "n"⟩, ⟨2, "e1", "ns", [11], 101, "n"⟩]
    ⟨3, "e1", "ns", [12], 102, "n"⟩ (by decide)
  exact ⟨by rw [h2.1]; decide, h2.2.2.2⟩

/-! ### Association-list lemmas for the G-Counter -/

theorem countOf_nil (k : String) : countOf [] k = 0 := rfl

theorem countOf_cons (k₀ : String) (v₀ : Nat) (t : List (String × Nat)) (k : String) :
    countOf ((k₀, v₀) :: t) k = if k = k₀ then v₀ else countOf t k := by
  by_cases h : k = k₀
  · subst h
    simp [countOf, List.lookup]
  · simp [countOf, List.lookup, beq_eq_false_iff_ne.mpr h, h]

theorem countOf_eq_zero_of_not_mem {l : List (String × Nat)} {k : String}
    (h : k ∉ l.map Prod.fst) : countOf l k = 0 := by
  induction l with
  | nil => rfl
  | cons e t ih =>
    simp only [List.map_cons, List.mem_cons] at h
    push_neg at h
    rw [show e = (e.1, e.2) from rfl, countOf_cons, if_neg h.1]
    exact ih h.2

theorem countOf_upsertMax (l : List (String × Nat)) (k : String) (v : Nat) (k' : String) :
    countOf (upsertMax l k v) k' =
      if k' = k then max (countOf l k') v else countOf l k' := by
  induction l with
  | nil =>
    simp only [upsertMax, countOf_nil]
    by_cases h : k' = k <;> simp [countOf_cons, countOf_nil, h]
  | cons e t ih =>
    obtain ⟨k₀, v₀⟩ := e
    simp only [upsertMax]
    by_cases h : k₀ = k
    · subst h
      by_cases h' : k' = k₀ <;> simp [countOf_cons, h', if_pos]
    · rw [if_neg h]
      by_cases h' : k' = k₀
      · subst h'
        rw [countOf_cons, if_pos rfl, countOf_cons, if_pos rfl,
          if_neg (by intro hk; subst hk; exact h rfl)]
      · rw [countOf_cons, if_neg h', ih, countOf_cons, if_neg h']

theorem keys_upsertMax (l : List (String × Nat)) (k : String) (v : Nat) :
    (upsertMax l k v).map Prod.fst =
      if k ∈ l.map Prod.fst then l.map Prod.fst else l.map Prod.fst ++ [k] := by
  induction l with
  | nil => simp [upsertMax]
  | cons e t ih =>
    obtain ⟨k₀, v₀⟩ := e
    simp only [upsertMax]
    by_cases h : k₀ = k
    · subst h
      simp
    · rw [if_neg h]
      simp only [List.map_cons, ih]
      by_cases hmem : k ∈ t.map Prod.fst
      · rw [if_pos hmem, if_pos (by simp [hmem])]
      · rw [if_neg hmem, if_neg (by simp [hmem]; intro hk; subst hk; exact h rfl)]
        simp

theorem nodupKeys_upsertMax {l : List (String × Nat)} (k : String) (v : Nat)
    (hl : NodupKeys l) : NodupKeys (upsertMax l k v) := by
  unfold NodupKeys at *
  rw [keys_upsertMax]
  by_cases h : k ∈ l.map Prod.fst
  · rwa [if_pos h]
  · rw [if_neg h]
    simp [List.nodup_append, hl, h]

theorem mem_keys_upsertMax {l : List (String × Nat)} {k k' : String} {v : Nat}
    (h : k' ∈ (upsertMax l k v).map Prod.fst) : k' ∈ l.map Prod.fst ∨ k' = k := by
  rw [keys_upsertMax] at h
  by_cases hm : k ∈ l.map Prod.fst
  · rw [if_pos hm] at h
    exact Or.inl h
  · rw [if_neg hm] at h
    simpa using h

theorem countOf_foldl (m : List (String × Nat)) (hm : NodupKeys m)
    (l : List (String × Nat)) (k : String) :
    countOf (m.foldl (fun acc p => upsertMax acc p.1 p.2) l) k =
      max (countOf l k) (countOf m k) := by
  induction m generalizing l with
  | nil => simp [countOf_nil]
  | cons e t ih =>
    obtain ⟨k₀, v₀⟩ := e
    unfold NodupKeys at hm
    simp only [List.map_cons, List.nodup_cons] at hm
    simp only [List.foldl_cons]
    rw [ih hm.2, countOf_upsertMax, countOf_cons]
    by_cases h : k = k₀
    · subst h
      rw [if_pos rfl, if_pos rfl,
        countOf_eq_zero_of_not_mem hm.1]
      omega
    · rw [if_neg h, if_neg h]

theorem mem_keys_foldl {m l : List (String × Nat)} {k : String}
    (h : k ∈ ((m.foldl (fun acc p => upsertMax acc p.1 p.2) l).map Prod.fst)) :
    k ∈ l.map Prod.fst ∨ k ∈ m.map Prod.fst := by
  induction m generalizing l with
  | nil => exact Or.inl h
  | cons e t ih =>
    simp only [List.foldl_cons] at h
    rcases ih h with h' | h'
    · rcases mem_keys_upsertMax h' with h'' | h''
      · exact Or.inl h''
      · exact Or.inr (by simp [h''])
    · exact Or.inr (by simp [h'])

theorem nodupKeys_foldl {m l : List (String × Nat)} (hl : NodupKeys l) :
    NodupKeys (m.foldl (fun acc p => upsertMax acc p.1 p.2) l) := by
  induction m generalizing l with
  | nil => exact hl
  | cons e t ih => exact ih (nodupKeys_upsertMax _ _ hl)

theorem value_sum_eq (l : List (String × Nat)) (hl : NodupKeys l) (K : Finset String)
    (hK : ∀ k ∈ l.map Prod.fst, k ∈ K) :
    (l.map (fun p => p.2)).sum = ∑ k in K, countOf l k := by
  induction l generalizing K with
  | nil => simp [countOf_nil]
  | cons e t ih =>
    obtain ⟨k₀, v₀⟩ := e
    unfold NodupKeys at hl
    simp only [List.map_cons, List.nodup_cons] at hl
    have hk₀ : k₀ ∈ K := hK k₀ (by simp)
    have hsub : ∀ k ∈ t.map Prod.fst, k ∈ K.erase k₀ := by
      intro k hk
      exact Finset.mem_erase.mpr ⟨fun he => hl.1 (he ▸ hk), hK k (by simp [hk])⟩
    rw [List.map_cons, List.sum_cons, ih hl.2 (K.erase k₀) hsub,
      ← Finset.add_sum_erase K _ hk₀, countOf_cons, if_pos rfl]
    congr 1
    refine Finset.sum_congr rfl (fun k hk => ?_)
    rw [countOf_cons, if_neg (Finset.mem_erase.mp hk).1]

theorem countOf_delta_filter (bc : List (String × Nat)) {a : List (String × Nat)}
    (ha : NodupKeys a) (k : String) :
    countOf (a.filter (fun p => countOf bc p.1 < p.2)) k =
      if countOf bc k < countOf a k then countOf a k else 0 := by
  induction a with
  | nil => simp [countOf_nil]
  | cons e t ih =>
    obtain ⟨k₀, v₀⟩ := e
    unfold NodupKeys at ha
    simp only [List.map_cons, List.nodup_cons] at ha
    by_cases hp : countOf bc k₀ < v₀
    · rw [List.filter_cons_of_pos (by simpa using hp), countOf_cons, countOf_cons]
      by_cases h : k = k₀
      · subst h
        rw [if_pos rfl, if_pos rfl, if_pos hp]
      · rw [if_neg h, if_neg h, ih ha.2]
    · rw [List.filter_cons_of_neg (by simpa using hp), countOf_cons]
      by_cases h : k = k₀
      · subst h
        rw [if_pos rfl, ih ha.2, countOf_eq_zero_of_not_mem ha.1,
          if_neg (Nat.not_lt_zero _), if_neg hp]
      · rw [if_neg h, ih ha.2]

theorem nodupKeys_filter {κ β : Type} (p : κ × β → Bool) {a : List (κ × β)}
    (ha : NodupKeys a) : NodupKeys (a.filter p) :=
  List.Nodup.sublist (List.Sublist.map Prod.fst (List.filter_sublist a)) ha

theorem mem_keys_filter {κ β : Type} {p : κ × β → Bool} {a : List (κ × β)} {k : κ}
    (h : k ∈ (a.filter p).map Prod.fst) : k ∈ a.map Prod.fst := by
  obtain ⟨e, he, rfl⟩ := List.mem_map.mp h
  exact List.mem_map_of_mem _ (List.mem_of_mem_filter he)

theorem gcounter_delta_merge_value (a b : GCounter) (ha : NodupKeys a.counts)
    (hb : NodupKeys b.counts) :
    (GCounter.apply_delta b (GCounter.delta a b)).value = (GCounter.merge b a).value := by
  classical
  set K : Finset String :=
    ((b.counts.map Prod.fst) ++ (a.counts.map Prod.fst)).toFinset with hK
  have hdn : NodupKeys (GCounter.delta a b).counts := nodupKeys_filter _ ha
  have h₁ : (GCounter.apply_delta b (GCounter.delta a b)).value =
      ∑ k in K, countOf ((GCounter.delta a b).counts.foldl
        (fun acc p => upsertMax acc p.1 p.2) b.counts) k := by
    refine value_sum_eq _ (nodupKeys_foldl hb) K (fun k hk => ?_)
    rcases mem_keys_foldl hk with h | h
    · simp [hK, h]
    · simp [hK, mem_keys_filter h]
  have h₂ : (GCounter.merge b a).value =
      ∑ k in K, countOf (a.counts.foldl
        (fun acc p => upsertMax acc p.1 p.2) b.counts) k := by
    refine value_sum_eq _ (nodupKeys_foldl hb) K (fun k hk => ?_)
    rcases mem_keys_foldl hk with h | h
    · simp [hK, h]
    · simp [hK, h]
  rw [h₁, h₂]
  refine Finset.sum_congr rfl (fun k _ => ?_)
  rw [countOf_foldl _ hdn, countOf_foldl _ ha,
    show (GCounter.delta a b).counts
      = a.counts.filter (fun p => countOf b.counts p.1 < p.2) from rfl,
    countOf_delta_filter _ ha]
  split_ifs <;> omega

/-! ### Association-list lemmas for the OR-Set -/

theorem getTags_eq_empty_of_not_mem {α : Type} [DecidableEq α]
    {l : List (α × Finset Tag)} {x : α} (h : x ∉ l.map Prod.fst) :
    getTags l x = ∅ := by
  induction l with
  | nil => rfl
  | cons e t ih =>
    simp only [List.map_cons, List.mem_cons] at h
    push_neg at h
    show getTags ((e.1, e.2) :: t) x = ∅
    rw [getTags, if_neg (fun he => h.1 he.symm)]
    exact ih h.2

theorem getTags_eq_of_mem {α : Type} [DecidableEq α]
    {l : List (α × Finset Tag)} (hl : NodupKeys l) {x : α} {ts : Finset Tag}
    (h : (x, ts) ∈ l) : getTags l x = ts := by
  induction l with
  | nil => cases h
  | cons e t ih =>
    unfold NodupKeys at hl
    simp only [List.map_cons, List.nodup_cons] at hl
    rcases List.mem_cons.mp h with he | he
    · rw [← he]
      show getTags ((x, ts) :: t) x = ts
      rw [getTags, if_pos rfl]
    · show getTags ((e.1, e.2) :: t) x = ts
      rw [getTags, if_neg, ih hl.2 he]
      intro hx
      exact hl.1 (hx ▸ List.mem_map_of_mem Prod.fst he)

theorem mem_getTags_exists {α : Type} [DecidableEq α]
    {l : List (α × Finset Tag)} {x : α} {t : Tag} (h : t ∈ getTags l x) :
    ∃ e ∈ l, e.1 = x ∧ t ∈ e.2 := by
  induction l with
  | nil => simp [getTags] at h
  | cons e tl ih =>
    rw [show e = (e.1, e.2) from rfl, getTags] at h
    by_cases hx : e.1 = x
    · rw [if_pos hx] at h
      exact ⟨e, List.mem_cons_self _ _, hx, h⟩
    · rw [if_neg hx] at h
      obtain ⟨e₀, he₀, hx₀, ht₀⟩ := ih h
      exact ⟨e₀, List.mem_cons_of_mem _ he₀, hx₀, ht₀⟩

theorem getTags_upsertTags {α : Type} [DecidableEq α]
    (l : List (α × Finset Tag)) (v : α) (s : Finset Tag) (x : α) :
    getTags (upsertTags l v s) x =
      if v = x then getTags l x ∪ s else getTags l x := by
  induction l with
  | nil =>
    simp only [upsertTags, getTags]
    by_cases h : v = x <;> simp [getTags, h]
  | cons e t ih =>
    obtain ⟨y, ts⟩ := e
    simp only [upsertTags]
    by_cases hy : y = v
    · subst hy
      rw [if_pos rfl]
      by_cases hx : y = x
      · rw [getTags, if_pos hx, getTags, if_pos hx, if_pos hx]
      · rw [getTags, if_neg hx, getTags, if_neg hx, if_neg hx]
    · rw [if_neg hy]
      by_cases hx : y = x
      · subst hx
        rw [getTags, if_pos rfl, getTags, if_pos rfl, if_neg (fun h => hy h.symm)]
      · rw [getTags, if_neg hx, getTags, if_neg hx, ih]

theorem keys_upsertTags {α : Type} [DecidableEq α]
    (l : List (α × Finset Tag)) (v : α) (s : Finset Tag) :
    (upsertTags l v s).map Prod.fst =
      if v ∈ l.map Prod.fst then l.map Prod.fst else l.map Prod.fst ++ [v] := by
  induction l with
  | nil => simp [upsertTags]
  | cons e t ih =>
    obtain ⟨y, ts⟩ := e
    simp only [upsertTags]
    by_cases hy : y = v
    · subst hy
      simp
    · rw [if_neg hy]
      simp only [List.map_cons, ih]
      by_cases hmem : v ∈ t.map Prod.fst
      · rw [if_pos hmem, if_pos (by simp [hmem])]
      · rw [if_neg hmem, if_neg (by simp [hmem]; intro hk; subst hk; exact hy rfl)]
        simp

theorem nodupKeys_upsertTags {α : Type} [DecidableEq α]
    {l : List (α × Finset Tag)} (v : α) (s : Finset Tag) (hl : NodupKeys l) :
    NodupKeys (upsertTags l v s) := by
  unfold NodupKeys at *
  rw [keys_upsertTags]
  by_cases h : v ∈ l.map Prod.fst
  · rwa [if_pos h]
  · rw [if_neg h]
    simp [List.nodup_append, hl, h]

theorem getTags_foldU {α : Type} [DecidableEq α] (f : Finset Tag → Finset Tag)
    (hf : f ∅ = ∅) (m : List (α × Finset Tag)) (hm : NodupKeys m)
    (l : List (α × Finset Tag)) (x : α) :
    getTags (m.foldl (fun acc p => upsertTags acc p.1 (f p.2)) l) x =
      getTags l x ∪ f (getTags m x) := by
  induction m generalizing l with
  | nil => simp [getTags, hf]
  | cons e t ih =>
    obtain ⟨v₀, ts₀⟩ := e
    unfold NodupKeys at hm
    simp only [List.map_cons, List.nodup_cons] at hm
    simp only [List.foldl_cons]
    rw [ih hm.2, getTags_upsertTags, getTags]
    by_cases h : v₀ = x
    · rw [if_pos h, if_pos h, ← h, getTags_eq_empty_of_not_mem hm.1]
      simp [hf, Finset.union_assoc]
    · rw [if_neg h, if_neg h]

theorem nodupKeys_foldU {α : Type} [DecidableEq α] (f : Finset Tag → Finset Tag)
    {m l : List (α × Finset Tag)} (hl : NodupKeys l) :
    NodupKeys (m.foldl (fun acc p => upsertTags acc p.1 (f p.2)) l) := by
  induction m generalizing l with
  | nil => exact hl
  | cons e t ih => exact ih (nodupKeys_upsertTags _ _ hl)

theorem getTags_map_sdiff {α : Type} [DecidableEq α]
    (l : List (α × Finset Tag)) (d : Finset Tag) (x : α) :
    getTags (l.map (fun e => (e.1, e.2 \ d))) x = getTags l x \ d := by
  induction l with
  | nil => simp [getTags]
  | cons e t ih =>
    rw [show e = (e.1, e.2) from rfl]
    simp only [List.map_cons]
    rw [getTags, getTags]
    by_cases h : e.1 = x
    · rw [if_pos h, if_pos h]
    · rw [if_neg h, if_neg h, ih]

theorem nodupKeys_map_sdiff {α : Type} [DecidableEq α]
    {l : List (α × Finset Tag)} (d : Finset Tag) (hl : NodupKeys l) :
    NodupKeys (l.map (fun e => (e.1, e.2 \ d))) := by
  unfold NodupKeys at *
  rw [List.map_map]
  exact hl

theorem getTags_filter_ne_empty {α : Type} [DecidableEq α]
    {l : List (α × Finset Tag)} (hl : NodupKeys l) (x : α) :
    getTags (l.filter (fun e => e.2 ≠ ∅)) x = getTags l x := by
  induction l with
  | nil => rfl
  | cons e t ih =>
    obtain ⟨y, ts⟩ := e
    unfold NodupKeys at hl
    simp only [List.map_cons, List.nodup_cons] at hl
    by_cases hts : ts = ∅
    · rw [List.filter_cons_of_neg (by simp [hts]), getTags]
      by_cases h : y = x
      · rw [if_pos h, ih hl.2, ← h, getTags_eq_empty_of_not_mem hl.1, hts]
      · rw [if_neg h, ih hl.2]
    · rw [List.filter_cons_of_pos (by simp [hts]), getTags, getTags]
      by_cases h : y = x
      · rw [if_pos h, if_pos h]
      · rw [if_neg h, if_neg h, ih hl.2]

theorem getTags_delta_additions {α : Type} [DecidableEq α]
    (oe : List (α × Finset Tag)) (ot : Finset Tag)
    {l : List (α × Finset Tag)} (hl : NodupKeys l) (x : α) :
    getTags (l.filterMap (fun p =>
        if p.2.filter (fun tag => tag ∉ getTags oe p.1 ∧ tag ∉ ot) = ∅ then none
        else some (p.1, p.2.filter (fun tag => tag ∉ getTags oe p.1 ∧ tag ∉ ot)))) x
      = (getTags l x).filter (fun tag => tag ∉ getTags oe x ∧ tag ∉ ot) := by
  induction l with
  | nil => simp [getTags]
  | cons e t ih =>
    obtain ⟨y, ts⟩ := e
    unfold NodupKeys at hl
    simp only [List.map_cons, List.nodup_cons] at hl
    simp only [List.filterMap_cons]
    by_cases hnt : ts.filter (fun tag => tag ∉ getTags oe y ∧ tag ∉ ot) = ∅
    · rw [if_pos hnt]
      rw [getTags]
      by_cases h : y = x
      · rw [if_pos h, ih hl.2, ← h, getTags_eq_empty_of_not_mem hl.1,
          Finset.filter_empty, hnt]
      · rw [if_neg h, ih hl.2]
    · rw [if_neg hnt]
      rw [getTags, getTags]
      by_cases h : y = x
      · rw [if_pos h, if_pos h, ← h]
      · rw [if_neg h, if_neg h, ih hl.2]

theorem keys_delta_additions_sublist {α : Type} [DecidableEq α]
    (oe : List (α × Finset Tag)) (ot : Finset Tag) (l : List (α × Finset Tag)) :
    ((l.filterMap (fun p =>
        if p.2.filter (fun tag => tag ∉ getTags oe p.1 ∧ tag ∉ ot) = ∅ then none
        else some (p.1, p.2.filter (fun tag => tag ∉ getTags oe p.1 ∧ tag ∉ ot)))).map
      Prod.fst).Sublist (l.map Prod.fst) := by
  induction l with
  | nil => simp
  | cons e t ih =>
    simp only [List.filterMap_cons]
    by_cases hnt : e.2.filter (fun tag => tag ∉ getTags oe e.1 ∧ tag ∉ ot) = ∅
    · rw [if_pos hnt]
      simp only [List.map_cons]
      exact ih.cons _
    · rw [if_neg hnt]
      simp only [List.map_cons]
      exact ih.cons₂ _

theorem tag_mem_upsertTags {α : Type} [DecidableEq α]
    {l : List (α × Finset Tag)} {v : α} {s : Finset Tag} {e : α × Finset Tag}
    (he : e ∈ upsertTags l v s) {t : Tag} (ht : t ∈ e.2) :
    (∃ e₀ ∈ l, t ∈ e₀.2) ∨ t ∈ s := by
  induction l with
  | nil =>
    simp only [upsertTags, List.mem_singleton] at he
    subst he
    exact Or.inr ht
  | cons e₁ tl ih =>
    obtain ⟨y, ts⟩ := e₁
    simp only [upsertTags] at he
    by_cases hy : y = v
    · rw [if_pos hy] at he
      rcases List.mem_cons.mp he with he' | he'
      · subst he'
        rcases Finset.mem_union.mp ht with h | h
        · exact Or.inl ⟨(y, ts), List.mem_cons_self _ _, h⟩
        · exact Or.inr h
      · exact Or.inl ⟨e, List.mem_cons_of_mem _ he', ht⟩
    · rw [if_neg hy] at he
      rcases List.mem_cons.mp he with he' | he'
      · subst he'
        exact Or.inl ⟨(y, ts), List.mem_cons_self _ _, ht⟩
      · rcases ih he' with ⟨e₀, he₀, ht₀⟩ | h
        · exact Or.inl ⟨e₀, List.mem_cons_of_mem _ he₀, ht₀⟩
        · exact Or.inr h

theorem tag_mem_foldU {α : Type} [DecidableEq α] (f : Finset Tag → Finset Tag)
    {m l : List (α × Finset Tag)} {e : α × Finset Tag}
    (he : e ∈ m.foldl (fun acc p => upsertTags acc p.1 (f p.2)) l) {t : Tag}
    (ht : t ∈ e.2) :
    (∃ e₀ ∈ l, t ∈ e₀.2) ∨ (∃ p ∈ m, t ∈ f p.2) := by
  induction m generalizing l with
  | nil => exact Or.inl ⟨e, he, ht⟩
  | cons p₀ tl ih =>
    simp only [List.foldl_cons] at he
    rcases ih he with h | h
    · obtain ⟨e₀, he₀, ht₀⟩ := h
      rcases tag_mem_upsertTags he₀ ht₀ with h' | h'
      · exact Or.inl h'
      · exact Or.inr ⟨p₀, List.mem_cons_self _ _, h'⟩
    · obtain ⟨p, hp, htp⟩ := h
      exact Or.inr ⟨p, List.mem_cons_of_mem _ hp, htp⟩

theorem mem_upsertTag {α : Type} [DecidableEq α]
    {l : List (α × Finset Tag)} {v : α} {tag : Tag} {e : α × Finset Tag}
    (he : e ∈ upsertTag l v tag) :
    e ∈ l ∨ (e.1 = v ∧ e.2 = insert tag (getTags l v)) := by
  induction l with
  | nil =>
    simp only [upsertTag, List.mem_singleton] at he
    subst he
    exact Or.inr ⟨rfl, by simp [getTags]⟩
  | cons e₁ tl ih =>
    obtain ⟨y, ts⟩ := e₁
    simp only [upsertTag] at he
    by_cases hy : y = v
    · rw [if_pos hy] at he
      rcases List.mem_cons.mp he with he' | he'
      · subst he'
        refine Or.inr ⟨hy, ?_⟩
        rw [getTags, if_pos hy]
      · exact Or.inl (List.mem_cons_of_mem _ he')
    · rw [if_neg hy] at he
      rcases List.mem_cons.mp he with he' | he'
      · exact Or.inl (he' ▸ List.mem_cons_self _ _)
      · rcases ih he' with h | h
        · exact Or.inl (List.mem_cons_of_mem _ h)
        · refine Or.inr ⟨h.1, ?_⟩
          rw [getTags, if_neg hy, h.2]

theorem keys_upsertTag {α : Type} [DecidableEq α]
    (l : List (α × Finset Tag)) (v : α) (tag : Tag) :
    (upsertTag l v tag).map Prod.fst =
      if v ∈ l.map Prod.fst then l.map Prod.fst else l.map Prod.fst ++ [v] := by
  induction l with
  | nil => simp [upsertTag]
  | cons e t ih =>
    obtain ⟨y, ts⟩ := e
    simp only [upsertTag]
    by_cases hy : y = v
    · subst hy
      simp
    · rw [if_neg hy]
      simp only [List.map_cons, ih]
      by_cases hmem : v ∈ t.map Prod.fst
      · rw [if_pos hmem, if_pos (by simp [hmem])]
      · rw [if_neg hmem, if_neg (by simp [hmem]; intro hk; subst hk; exact hy rfl)]
        simp

theorem nodupKeys_upsertTag {α : Type} [DecidableEq α]
    {l : List (α × Finset Tag)} (v : α) (tag : Tag) (hl : NodupKeys l) :
    NodupKeys (upsertTag l v tag) := by
  unfold NodupKeys at *
  rw [keys_upsertTag]
  by_cases h : v ∈ l.map Prod.fst
  · rwa [if_pos h]
  · rw [if_neg h]
    simp [List.nodup_append, hl, h]

theorem getTags_fold_filter {α : Type} [DecidableEq α] (tomb : Finset Tag)
    {m : List (α × Finset Tag)} (hm : NodupKeys m) (l : List (α × Finset Tag)) (x : α) :
    getTags (m.foldl
        (fun acc p => upsertTags acc p.1 (p.2.filter (fun tag => tag ∉ tomb))) l) x
      = getTags l x ∪ (getTags m x).filter (fun tag => tag ∉ tomb) :=
  getTags_foldU (fun s => s.filter (fun tag => tag ∉ tomb)) (Finset.filter_empty _)
    m hm l x

theorem orset_tags_delta_merge {α : Type} [DecidableEq α] (a b : ORSet α)
    (ha : NodupKeys a.elements) (hb : NodupKeys b.elements)
    (hdisj : ∀ e ∈ b.elements, ∀ t ∈ e.2, t ∉ b.tombstones) (x : α) :
    getTags (ORSet.apply_delta b (ORSet.delta a b)).elements x
      = getTags (ORSet.merge b a).elements x := by
  have hdadd : (ORSet.delta a b).additions
      = a.elements.filterMap (fun p =>
          if p.2.filter (fun tag => tag ∉ getTags b.elements p.1 ∧ tag ∉ b.tombstones) = ∅
          then none
          else some (p.1,
            p.2.filter (fun tag => tag ∉ getTags b.elements p.1 ∧ tag ∉ b.tombstones))) := rfl
  have hdnd : NodupKeys (ORSet.delta a b).additions := by
    rw [hdadd]
    exact List.Nodup.sublist (keys_delta_additions_sublist b.elements b.tombstones a.elements) ha
  have hmel : (ORSet.merge b a).elements
      = ((a.elements.foldl
            (fun acc p => upsertTags acc p.1 (p.2.filter (fun tag => tag ∉ b.tombstones)))
            b.elements).map (fun e => (e.1, e.2 \ a.tombstones))).filter
          (fun e => e.2 ≠ ∅) := rfl
  have hael : (ORSet.apply_delta b (ORSet.delta a b)).elements
      = (((ORSet.delta a b).additions.foldl
            (fun acc p => upsertTags acc p.1 (p.2.filter (fun tag => tag ∉ b.tombstones)))
            b.elements).map
          (fun e => (e.1, e.2 \ (a.tombstones \ b.tombstones)))).filter
          (fun e => e.2 ≠ ∅) := rfl
  rw [hmel, hael,
    getTags_filter_ne_empty (nodupKeys_map_sdiff _ (nodupKeys_foldU _ hb)),
    getTags_filter_ne_empty (nodupKeys_map_sdiff _ (nodupKeys_foldU _ hb)),
    getTags_map_sdiff, getTags_map_sdiff,
    getTags_fold_filter b.tombstones hdnd b.elements x,
    getTags_fold_filter b.tombstones ha b.elements x,
    hdadd, getTags_delta_additions b.elements b.tombstones ha x]
  have hbt : ∀ t ∈ getTags b.elements x, t ∉ b.tombstones := by
    intro t ht
    obtain ⟨e, he, _, hte⟩ := mem_getTags_exists ht
    exact hdisj e he t hte
  ext t
  have hb' : t ∈ getTags b.elements x → t ∉ b.tombstones := hbt t
  simp only [Finset.mem_sdiff, Finset.mem_union, Finset.mem_filter]
  tauto

/-- C2 counterexample: an ORSet state `b` holding element 0 under tag
`("a",1)` while also carrying `("a",1)` as a tombstone (representable, e.g.
through deserialization, but not API-reachable).  Merging `a` (which has the
same tombstone) removes the element; the delta path leaves it, because
`delta` drops tombstones the receiver already has.  So the claim fails as
stated for all states. -/
theorem delta_apply_counterexample :
    ¬ ((ORSet.apply_delta (⟨"b", 0, [(0, {("a", 1)})], {("a", 1)}⟩ : ORSet Nat)
          (ORSet.delta ⟨"a", 1, [], {("a", 1)}⟩ ⟨"b", 0, [(0, {("a", 1)})], {("a", 1)}⟩)).contains 0
        ↔ (ORSet.merge (⟨"b", 0, [(0, {("a", 1)})], {("a", 1)}⟩ : ORSet Nat)
            ⟨"a", 1, [], {("a", 1)}⟩).contains 0) := by
  decide

/-- C2 (amended): `apply_delta(b, delta(a,b))` has the same observable value
as `merge(b,a)` — for G-Counters and PN-Counters the numeric value, for all
states; for OR-Sets the set of contained elements, for all states `b` whose
tombstones are disjoint from their stored tags (as every API-reachable state
is). -/
theorem delta_apply_matches_merge {α : Type} [DecidableEq α]
    (a b : GCounter) (p q : PNCounter) (s o : ORSet α)
    (ha : NodupKeys a.counts) (hb : NodupKeys b.counts)
    (hp₁ : NodupKeys p.increments.counts) (hp₂ : NodupKeys p.decrements.counts)
    (hq₁ : NodupKeys q.increments.counts) (hq₂ : NodupKeys q.decrements.counts)
    (hs : NodupKeys s.elements) (ho : NodupKeys o.elements)
    (hdisj : ∀ e ∈ o.elements, ∀ t ∈ e.2, t ∉ o.tombstones) :
    (GCounter.apply_delta b (GCounter.delta a b)).value = (GCounter.merge b a).value
    ∧ (PNCounter.apply_delta q (PNCounter.delta p q)).value = (PNCounter.merge q p).value
    ∧ ∀ x, ((ORSet.apply_delta o (ORSet.delta s o)).contains x
        ↔ (ORSet.merge o s).contains x) := by
  refine ⟨gcounter_delta_merge_value a b ha hb, ?_, ?_⟩
  · simp only [PNCounter.value, PNCounter.apply_delta, PNCounter.delta, PNCounter.merge]
    rw [gcounter_delta_merge_value p.increments q.increments hp₁ hq₁,
      gcounter_delta_merge_value p.decrements q.decrements hp₂ hq₂]
  · intro x
    unfold ORSet.contains
    rw [orset_tags_delta_merge s o hs ho hdisj x]

/-- C2 witness: concrete counters and OR-Sets with the hypotheses
discharged. -/
theorem delta_apply_matches_merge_witness :
    (GCounter.apply_delta ⟨"b", [("b", 1)]⟩
        (GCounter.delta ⟨"a", [("a", 2)]⟩ ⟨"b", [("b", 1)]⟩)).value
      = (GCounter.merge ⟨"b", [("b", 1)]⟩ ⟨"a", [("a", 2)]⟩).value
    ∧ (PNCounter.apply_delta ⟨⟨"b", [("b", 4)]⟩, ⟨"b", []⟩⟩
        (PNCounter.delta ⟨⟨"a", [("a", 2)]⟩, ⟨"a", [("a", 1)]⟩⟩
          ⟨⟨"b", [("b", 4)]⟩, ⟨"b", []⟩⟩)).value
      = (PNCounter.merge ⟨⟨"b", [("b", 4)]⟩, ⟨"b", []⟩⟩
          ⟨⟨"a", [("a", 2)]⟩, ⟨"a", [("a", 1)]⟩⟩).value
    ∧ ((ORSet.apply_delta (⟨"b", 1, [(6, {("b", 1)})], ∅⟩ : ORSet Nat)
          (ORSet.delta ⟨"a", 1, [(5, {("a", 1)})], ∅⟩ ⟨"b", 1, [(6, {("b", 1)})], ∅⟩)).contains 5
        ↔ (ORSet.merge (⟨"b", 1, [(6, {("b", 1)})], ∅⟩ : ORSet Nat)
            ⟨"a", 1, [(5, {("a", 1)})], ∅⟩).contains 5) := by
  have h := delta_apply_matches_merge
    ⟨"a", [("a", 2)]⟩ ⟨"b", [("b", 1)]⟩
    ⟨⟨"a", [("a", 2)]⟩, ⟨"a", [("a", 1)]⟩⟩ ⟨⟨"b", [("b", 4)]⟩, ⟨"b", []⟩⟩
    (⟨"a", 1, [(5, {("a", 1)})], ∅⟩ : ORSet Nat) ⟨"b", 1, [(6, {("b", 1)})], ∅⟩
    (by decide) (by decide) (by decide) (by decide) (by decide) (by decide)
    (by decide) (by decide) (by decide)
  exact ⟨h.1, h.2.1, h.2.2 5⟩

/-! ### C9: OR-Set invariant -/

/-- C9 counterexample: two "replicas" that share the actor string "a".
Replica B inserts 0 (tag `("a",1)`) and removes it; a fresh replica A
applies `delta(B, A)`, receiving the tombstone `("a",1)` but — because
`apply_delta` does not raise the counter — then re-generates the *same* tag
`("a",1)` on `insert(0)`.  The resulting state is reachable by the claim's
operations yet stores a tag that is simultaneously live and tombstoned. -/
theorem orset_invariant_counterexample :
    ORSet.Reachable
      (ORSet.insert
        (ORSet.apply_delta (ORSet.new "a")
          (ORSet.delta ((ORSet.insert (ORSet.new (α := Nat) "a") 0).remove 0).2
            (ORSet.new "a")))
        0)
    ∧ ¬ (ORSet.insert
        (ORSet.apply_delta (ORSet.new "a")
          (ORSet.delta ((ORSet.insert (ORSet.new (α := Nat) "a") 0).remove 0).2
            (ORSet.new "a")))
        0).Inv := by
  constructor
  · exact ORSet.Reachable.insert _ 0
      (ORSet.Reachable.applyDelta _ _ (ORSet.Reachable.new "a")
        (ORSet.Reachable.remove _ 0
          (ORSet.Reachable.insert _ 0 (ORSet.Reachable.new "a"))))
  · decide

/-- C9 (amended): the invariant — tombstones disjoint from every stored tag
set, and every stored entry non-empty — holds of `new` and is preserved by
`merge` and `apply_delta` against *arbitrary* arguments, by `insert`
provided the freshly generated tag `(actor, counter+1)` is not already
tombstoned, and by `remove` provided the removed element's tags are not
stored under any other element; both provisos hold when replicas have
distinct actors, and the counterexample shows reuse of an actor violates
them.  Under the invariant, `contains`, `len` and iteration agree: an
element is contained iff its key is stored, and `len` counts all stored
keys. -/
theorem orset_invariant_preservation {α : Type} [DecidableEq α]
    (s o : ORSet α) (d : ORSetDelta α) (v : α) (actor : String)
    (hs : s.Inv)
    (hfresh : (s.actor, s.counter + 1) ∉ s.tombstones)
    (hrem : ∀ e ∈ s.elements, e.1 ≠ v → ∀ t ∈ e.2, t ∉ getTags s.elements v) :
    (ORSet.new (α := α) actor).Inv
    ∧ (s.insert v).Inv
    ∧ (s.remove v).2.Inv
    ∧ (s.merge o).Inv
    ∧ (s.apply_delta d).Inv
    ∧ (∀ x, (s.contains x ↔ x ∈ s.elements.map Prod.fst) ∧ s.len = s.elements.length) := by
  obtain ⟨hnd, hne, hdisj⟩ := hs
  refine ⟨⟨by simp [ORSet.new, NodupKeys], by simp [ORSet.new], by simp [ORSet.new]⟩,
    ?_, ?_, ?_, ?_, ?_⟩
  · -- insert
    refine ⟨nodupKeys_upsertTag _ _ hnd, ?_, ?_⟩
    · intro e he
      rcases mem_upsertTag he with h | h
      · exact hne e h
      · rw [h.2]
        exact Finset.insert_ne_empty _ _
    · intro e he t ht
      rcases mem_upsertTag he with h | h
      · exact hdisj e h t ht
      · rw [h.2] at ht
        rcases Finset.mem_insert.mp ht with rfl | ht'
        · exact hfresh
        · obtain ⟨e₀, he₀, _, ht₀⟩ := mem_getTags_exists ht'
          exact hdisj e₀ he₀ t ht₀
  · -- remove
    unfold ORSet.remove
    by_cases hv : v ∈ s.elements.map Prod.fst
    · rw [if_pos hv]
      refine ⟨nodupKeys_filter _ hnd, ?_, ?_⟩
      · intro e he
        exact hne e (List.mem_of_mem_filter he)
      · intro e he t ht
        have hmem := List.mem_filter.mp he
        have hne_v : e.1 ≠ v := by simpa using hmem.2
        simp only [Finset.mem_union, not_or]
        exact ⟨hdisj e hmem.1 t ht, hrem e hmem.1 hne_v t ht⟩
    · rw [if_neg hv]
      exact ⟨hnd, hne, hdisj⟩
  · -- merge
    refine ⟨nodupKeys_filter _ (nodupKeys_map_sdiff _ (nodupKeys_foldU _ hnd)), ?_, ?_⟩
    · intro e he
      exact of_decide_eq_true (List.mem_filter.mp he).2
    · intro e he t ht
      have he₂ := List.mem_of_mem_filter he
      obtain ⟨e₁, he₁, rfl⟩ := List.mem_map.mp he₂
      have ht' := Finset.mem_sdiff.mp ht
      have hnot_s : t ∉ s.tombstones := by
        rcases tag_mem_foldU _ he₁ ht'.1 with ⟨e₀, he₀, ht₀⟩ | ⟨p, _, htp⟩
        · exact hdisj e₀ he₀ t ht₀
        · exact (Finset.mem_filter.mp htp).2
      show t ∉ s.tombstones ∪ o.tombstones
      simp only [Finset.mem_union, not_or]
      exact ⟨hnot_s, ht'.2⟩
  · -- apply_delta
    refine ⟨nodupKeys_filter _ (nodupKeys_map_sdiff _ (nodupKeys_foldU _ hnd)), ?_, ?_⟩
    · intro e he
      exact of_decide_eq_true (List.mem_filter.mp he).2
    · intro e he t ht
      have he₂ := List.mem_of_mem_filter he
      obtain ⟨e₁, he₁, rfl⟩ := List.mem_map.mp he₂
      have ht' := Finset.mem_sdiff.mp ht
      have hnot_s : t ∉ s.tombstones := by
        rcases tag_mem_foldU _ he₁ ht'.1 with ⟨e₀, he₀, ht₀⟩ | ⟨p, _, htp⟩
        · exact hdisj e₀ he₀ t ht₀
        · exact (Finset.mem_filter.mp htp).2
      show t ∉ s.tombstones ∪ d.tombstones
      simp only [Finset.mem_union, not_or]
      exact ⟨hnot_s, ht'.2⟩
  · -- contains / len / iteration agreement
    intro x
    constructor
    · constructor
      · intro h
        by_contra hx
        rw [ORSet.contains, getTags_eq_empty_of_not_mem hx] at h
        exact absurd h (by simp)
      · intro hx
        obtain ⟨e, he, hfst⟩ := List.mem_map.mp hx
        have : (x, e.2) ∈ s.elements := by
          rw [show (x, e.2) = e from by rw [← hfst]]
          exact he
        rw [ORSet.contains, getTags_eq_of_mem hnd this]
        exact Finset.nonempty_iff_ne_empty.mpr (hne e he)
    · unfold ORSet.len
      rw [List.filter_eq_self.mpr (fun e he => by simpa using hne e he)]

/-- C9 witness: the amended preservation at a concrete well-formed state
with a fresh tag and an unshared removed element. -/
theorem orset_invariant_preservation_witness :
    ((⟨"a", 1, [(5, {("a", 1)})], {("b", 1)}⟩ : ORSet Nat).insert 5).Inv
    ∧ ((⟨"a", 1, [(5, {("a", 1)})], {("b", 1)}⟩ : ORSet Nat).merge
        ⟨"b", 1, [(6, {("b", 1)})], ∅⟩).Inv
    ∧ ((⟨"a", 1, [(5, {("a", 1)})], {("b", 1)}⟩ : ORSet Nat).remove 5).2.Inv := by
  have h := orset_invariant_preservation
    (⟨"a", 1, [(5, {("a", 1)})], {("b", 1)}⟩ : ORSet Nat)
    ⟨"b", 1, [(6, {("b", 1)})], ∅⟩
    (ORSet.delta (⟨"b", 1, [(6, {("b", 1)})], ∅⟩ : ORSet Nat)
      ⟨"a", 1, [(5, {("a", 1)})], {("b", 1)}⟩)
    5 "z" (by decide) (by decide) (by decide)
  exact ⟨h.2.1, h.2.2.2.1, h.2.2.1⟩

end CrdtKit
